import Mathlib

set_option maxRecDepth 10000

/-!
# Verification of the `primter` incremental prime sieve

Shallow embedding of `src/lib.rs`: the `Primes` engine (growable sieve of
Eratosthenes plus ordered prime list), its growth operations `generate_to`
and `generate_amount`, the query `is_prime` (sieve lookup, trial division
against known primes, and a 6k±1 wheel fallback), and the two iterators.

Machine integers (`usize`) are modelled as `Nat`; loops whose bounds are not
structural are given explicit fuel arguments together with lemmas showing the
fuel is sufficient, so that every definition is executable.
-/

/-- The `Primes` struct: `sieve[i] = true` means `i` is marked composite;
`primes` is the ordered list of discovered primes. -/
structure Primes where
  sieve : List Bool
  primes : List Nat

/-- `Primes::new`: sieve `[true, true, false, false]`, primes `[2, 3]`. -/
def Primes.new : Primes :=
  ⟨[true, true, false, false], [2, 3]⟩

/-- Inner marking loop of `generate_to`:
`for number in (start..sieve.len()).step_by(step) { sieve[number] = true; }`.
The fuel argument counts loop iterations; `sieve.length` iterations always
suffice when `step ≥ 1` because `number` grows by at least 1 each step. -/
def markMultiplesAux : Nat → List Bool → Nat → Nat → List Bool
  | 0, sieve, _, _ => sieve
  | fuel+1, sieve, number, step =>
    if number < sieve.length then
      markMultiplesAux fuel (sieve.set number true) (number + step) step
    else sieve

/-- Marking loop of `generate_to` with its sufficient fuel. -/
def markMultiples (sieve : List Bool) (start step : Nat) : List Bool :=
  markMultiplesAux sieve.length sieve start step

/-- First loop of `generate_to`: for every already-known prime, mark its
multiples inside the newly added range, starting from the first multiple at
or after the old length: `(old_len + prime - 1) / prime * prime`. -/
def propagatePrimes (sieve : List Bool) (old_len : Nat) : List Nat → List Bool
  | [] => sieve
  | p :: ps => propagatePrimes (markMultiples sieve ((old_len + p - 1) / p * p) p) old_len ps

/-- Second loop of `generate_to`:
`for prime in old_len..sieve.len() { if !sieve[prime] { mark from prime*prime; push } }`.
Fuel bounds the iteration count; `sieve.length` iterations suffice since the
index increases by 1 each step and the sieve length is preserved. -/
def scanAux : Nat → List Bool → List Nat → Nat → List Bool × List Nat
  | 0, sieve, primes, _ => (sieve, primes)
  | fuel+1, sieve, primes, i =>
    if i < sieve.length then
      if sieve.getD i true then
        scanAux fuel sieve primes (i + 1)
      else
        scanAux fuel (markMultiples sieve (i * i) i) (primes ++ [i]) (i + 1)
    else (sieve, primes)

/-- Rust's `usize::next_power_of_two` (smallest power of two ≥ `n`, and `1`
for `n ≤ 1`), computed by halving; fuel `n` bounds the recursion depth. -/
def nextPowerOfTwoAux : Nat → Nat → Nat
  | 0, _ => 1
  | fuel+1, n => if n ≤ 1 then 1 else 2 * nextPowerOfTwoAux fuel ((n + 1) / 2)

/-- Rust's `(n).next_power_of_two()`. -/
def nextPowerOfTwo (n : Nat) : Nat :=
  nextPowerOfTwoAux n n

/-- `Primes::generate_to`: no-op when the sieve already covers `n`; otherwise
grow the sieve to `(n + 1).next_power_of_two()` entries (new entries `false`),
mark multiples of every known prime inside the new range, then scan the new
range discovering new primes (marking from each new prime's square). -/
def Primes.generate_to (s : Primes) (n : Nat) : Primes :=
  if s.sieve.length > n then s
  else
    let old_len := s.sieve.length
    let sieve := s.sieve ++ List.replicate (nextPowerOfTwo (n + 1) - s.sieve.length) false
    let sieve := propagatePrimes sieve old_len s.primes
    let out := scanAux sieve.length sieve s.primes old_len
    ⟨out.1, out.2⟩

/-- Loop of `Primes::generate_amount`:
`while primes.len() <= amount { generate_to(sieve.len()) }`.
Fuel counts iterations; `amount + 1` iterations suffice from every reachable
state because each doubling discovers at least one new prime (Bertrand). -/
def generateAmountAux : Nat → Primes → Nat → Primes
  | 0, s, _ => s
  | fuel+1, s, amount =>
    if s.primes.length ≤ amount then
      generateAmountAux fuel (s.generate_to s.sieve.length) amount
    else s

/-- `Primes::generate_amount` with its sufficient fuel. -/
def Primes.generate_amount (s : Primes) (amount : Nat) : Primes :=
  generateAmountAux (amount + 1) s amount

/-- Trial-division loop of `is_prime` over the known primes: answers
`some true` when a prime's square exceeds `n`, `some false` on an exact
division, `none` when the list is exhausted. -/
def trialDivision (n : Nat) : List Nat → Option Bool
  | [] => none
  | p :: ps =>
    if p * p > n then some true
    else if n % p = 0 then some false
    else trialDivision n ps

/-- 6k±1 wheel loop of `is_prime`:
`for number in (start..).step_by(6)`, breaking (answer `true`) when
`(number-1)^2 > n`, answering `false` on an exact division by `number-1` or
`number+1`. Fuel counts iterations; any fuel ≥ `n + 2` is sufficient because
the loop breaks as soon as `number - 1 > n`. -/
def wheelAux (n : Nat) : Nat → Nat → Bool
  | 0, _ => true
  | fuel+1, number =>
    if (number - 1) * (number - 1) > n then true
    else if n % (number - 1) = 0 ∨ n % (number + 1) = 0 then false
    else wheelAux n fuel (number + 6)

/-- `Primes::is_prime`: direct sieve lookup when `n` is covered, otherwise
divisibility by 2/3, trial division by the known primes, then the 6k±1 wheel
starting from the position implied by the last known prime. -/
def Primes.is_prime (s : Primes) (n : Nat) : Bool :=
  if s.sieve.length > n then !(s.sieve.getD n true)
  else if n % 2 = 0 ∨ n % 3 = 0 then false
  else
    match trialDivision n s.primes with
    | some b => b
    | none =>
      let last := (s.primes.getLast?).getD 0
      let start :=
        if last % 6 = 1 then last - 1
        else if last % 6 = 5 then last + 1
        else 6
      wheelAux n (n + 2) start

/-- The squares computed by the trial-division loop of `is_prime` (`prime * prime`),
in execution order, following the loop's control flow. -/
def trialSquares (n : Nat) : List Nat → List Nat
  | [] => []
  | p :: ps =>
    if p * p > n then [p * p]
    else if n % p = 0 then [p * p]
    else p * p :: trialSquares n ps

/-- The squares computed by the wheel loop of `is_prime`
(`(number - 1) * (number - 1)`), in execution order. -/
def wheelSquaresAux (n : Nat) : Nat → Nat → List Nat
  | 0, _ => []
  | fuel+1, number =>
    if (number - 1) * (number - 1) > n then [(number - 1) * (number - 1)]
    else if n % (number - 1) = 0 ∨ n % (number + 1) = 0 then [(number - 1) * (number - 1)]
    else (number - 1) * (number - 1) :: wheelSquaresAux n fuel (number + 6)

/-- All squares computed by `is_prime s n`, following its control flow. -/
def isPrimeSquares (s : Primes) (n : Nat) : List Nat :=
  if s.sieve.length > n then []
  else if n % 2 = 0 ∨ n % 3 = 0 then []
  else
    match trialDivision n s.primes with
    | some _ => trialSquares n s.primes
    | none =>
      let last := (s.primes.getLast?).getD 0
      let start :=
        if last % 6 = 1 then last - 1
        else if last % 6 = 5 then last + 1
        else 6
      trialSquares n s.primes ++ wheelSquaresAux n (n + 2) start

/-- Owned iterator for `Primes` (`IntoIter`): engine plus cursor. -/
structure IntoIter where
  primes : Primes
  index : Nat

/-- `IntoIter::next`: increment the cursor, `generate_amount(cursor)`, return
the prime at position `cursor - 1` (always `some`). -/
def IntoIter.next (it : IntoIter) : Option Nat × IntoIter :=
  let index := it.index + 1
  let primes := it.primes.generate_amount index
  (some (primes.primes.getD (index - 1) 0), ⟨primes, index⟩)

/-- Borrowed iterator for `Primes` (`Iter`): engine plus cursor (the exclusive
borrow is modelled by state passing). -/
structure Iter where
  primes : Primes
  index : Nat

/-- `Iter::next`: identical to `IntoIter::next`. -/
def Iter.next (it : Iter) : Option Nat × Iter :=
  let index := it.index + 1
  let primes := it.primes.generate_amount index
  (some (primes.primes.getD (index - 1) 0), ⟨primes, index⟩)

/-- Collect the first `k` elements produced by the owned iterator. -/
def takeIntoIter : Nat → IntoIter → List Nat
  | 0, _ => []
  | k+1, it =>
    match it.next with
    | (some p, it2) => p :: takeIntoIter k it2
    | (none, _) => []

/-- Collect the first `k` elements produced by the borrowed iterator. -/
def takeIter : Nat → Iter → List Nat
  | 0, _ => []
  | k+1, it =>
    match it.next with
    | (some p, it2) => p :: takeIter k it2
    | (none, _) => []

/-! ## Characterization of the marking loop -/

theorem getD_set_self (l : List Bool) (i : Nat) (h : i < l.length) (x d : Bool) :
    (l.set i x).getD i d = x := by
  simp [List.getD_eq_getElem?_getD, List.getElem?_set, h]

theorem getD_set_ne (l : List Bool) (i j : Nat) (h : i ≠ j) (x d : Bool) :
    (l.set i x).getD j d = l.getD j d := by
  simp [List.getD_eq_getElem?_getD, List.getElem?_set, h]

theorem markMultiplesAux_length (fuel : Nat) (sieve : List Bool) (a b : Nat) :
    (markMultiplesAux fuel sieve a b).length = sieve.length := by
  induction fuel generalizing sieve a with
  | zero => rfl
  | succ fuel ih =>
    simp only [markMultiplesAux]
    split
    · rw [ih]; simp
    · rfl

theorem markMultiples_length (sieve : List Bool) (a b : Nat) :
    (markMultiples sieve a b).length = sieve.length :=
  markMultiplesAux_length _ _ _ _

/-- Shifting the base of the marking progression by one step. -/
theorem dvd_sub_shift (b a j : Nat) (hb : 1 ≤ b) (haj : a < j) :
    (a + b ≤ j ∧ b ∣ j - (a + b)) ↔ b ∣ j - a := by
  constructor
  · rintro ⟨h1, m, hm⟩
    exact ⟨m + 1, by rw [Nat.mul_add, Nat.mul_one]; omega⟩
  · rintro ⟨m, hm⟩
    rcases m with _ | m
    · omega
    · refine ⟨?_, ⟨m, ?_⟩⟩ <;> rw [Nat.mul_add, Nat.mul_one] at hm <;> omega

theorem markMultiplesAux_getD (fuel : Nat) (sieve : List Bool) (a b j : Nat) (d : Bool)
    (hb : 1 ≤ b) (hfuel : sieve.length ≤ a + fuel) :
    (markMultiplesAux fuel sieve a b).getD j d =
      if a ≤ j ∧ j < sieve.length ∧ b ∣ j - a then true else sieve.getD j d := by
  induction fuel generalizing sieve a with
  | zero =>
    simp only [markMultiplesAux]
    rw [if_neg]
    omega
  | succ fuel ih =>
    simp only [markMultiplesAux]
    split
    · rename_i ha
      rw [ih (sieve.set a true) (a + b) (by simp; omega)]
      rw [List.length_set]
      by_cases hj : j = a
      · subst hj
        rw [if_neg (by omega), if_pos ⟨Nat.le_refl _, ha, by simp⟩,
          getD_set_self _ _ ha]
      · rw [getD_set_ne _ _ _ (fun h => hj h.symm)]
        by_cases hcov : a ≤ j ∧ j < sieve.length ∧ b ∣ j - a
        · rw [if_pos hcov]
          have haj : a < j := by omega
          rw [if_pos ⟨((dvd_sub_shift b a j hb haj).2 hcov.2.2).1, hcov.2.1,
            ((dvd_sub_shift b a j hb haj).2 hcov.2.2).2⟩]
        · rw [if_neg hcov, if_neg]
          intro ⟨h1, h2, h3⟩
          exact hcov ⟨by omega, h2, (dvd_sub_shift b a j hb (by omega)).1 ⟨h1, h3⟩⟩
    · rw [if_neg]
      omega

theorem markMultiples_getD (sieve : List Bool) (a b j : Nat) (d : Bool) (hb : 1 ≤ b) :
    (markMultiples sieve a b).getD j d =
      if a ≤ j ∧ j < sieve.length ∧ b ∣ j - a then true else sieve.getD j d :=
  markMultiplesAux_getD _ _ _ _ _ _ hb (by omega)

/-! ## Characterization of the prime-propagation loop -/

/-- `(L + p - 1) / p * p` is at least `L`. -/
theorem ceilMul_ge (L p : Nat) (hp : 1 ≤ p) : L ≤ (L + p - 1) / p * p := by
  have h1 := Nat.div_add_mod (L + p - 1) p
  have h2 := Nat.mod_lt (L + p - 1) (show 0 < p by omega)
  have h3 : (L + p - 1) / p * p = p * ((L + p - 1) / p) := Nat.mul_comm _ _
  omega

theorem ceilMul_dvd (L p : Nat) : p ∣ (L + p - 1) / p * p :=
  dvd_mul_left p _

/-- `(L + p - 1) / p * p` is the least multiple of `p` that is at least `L`. -/
theorem ceilMul_le_of_dvd (L p m : Nat) (hp : 1 ≤ p) (hm : p ∣ m) (hLm : L ≤ m) :
    (L + p - 1) / p * p ≤ m := by
  obtain ⟨t, rfl⟩ := hm
  have h1 : (L + p - 1) / p ≤ t := by
    rw [Nat.div_le_iff_le_mul_add_pred (by omega)]
    omega
  calc (L + p - 1) / p * p ≤ t * p := Nat.mul_le_mul_right p h1
    _ = p * t := Nat.mul_comm _ _

theorem propagatePrimes_length (ps : List Nat) (sieve : List Bool) (L : Nat) :
    (propagatePrimes sieve L ps).length = sieve.length := by
  induction ps generalizing sieve with
  | nil => rfl
  | cons p ps ih => rw [propagatePrimes, ih, markMultiples_length]

theorem propagatePrimes_getD (ps : List Nat) (sieve : List Bool) (L : Nat)
    (hps : ∀ p ∈ ps, 1 ≤ p) (j : Nat) (d : Bool) :
    (propagatePrimes sieve L ps).getD j d =
      if ∃ p ∈ ps, p ∣ j ∧ L ≤ j ∧ j < sieve.length then true else sieve.getD j d := by
  induction ps generalizing sieve with
  | nil => simp [propagatePrimes]
  | cons p ps ih =>
    have hp : 1 ≤ p := hps p (List.mem_cons_self p ps)
    rw [propagatePrimes, ih _ (fun q hq => hps q (List.mem_cons_of_mem p hq)),
      markMultiples_length, markMultiples_getD _ _ _ _ _ hp]
    by_cases hrest : ∃ q ∈ ps, q ∣ j ∧ L ≤ j ∧ j < sieve.length
    · rw [if_pos hrest, if_pos]
      obtain ⟨q, hq1, hq2⟩ := hrest
      exact ⟨q, List.mem_cons_of_mem p hq1, hq2⟩
    · rw [if_neg hrest]
      by_cases hhd : p ∣ j ∧ L ≤ j ∧ j < sieve.length
      · rw [if_pos ⟨ceilMul_le_of_dvd L p j hp hhd.1 hhd.2.1, hhd.2.2,
          (Nat.dvd_sub' hhd.1 (ceilMul_dvd L p))⟩,
          if_pos ⟨p, List.mem_cons_self p ps, hhd⟩]
      · rw [if_neg, if_neg]
        · rintro ⟨q, hq1, hq2⟩
          rcases List.mem_cons.1 hq1 with rfl | hq1
          · exact hhd hq2
          · exact hrest ⟨q, hq1, hq2⟩
        · rintro ⟨h1, h2, h3⟩
          have hdvd : p ∣ j := by
            have : j = (L + p - 1) / p * p + (j - (L + p - 1) / p * p) := by omega
            rw [this]
            exact Nat.dvd_add (ceilMul_dvd L p) h3
          exact hhd ⟨hdvd, le_trans (ceilMul_ge L p hp) h1, h2⟩

/-! ## Characterization of the discovery scan -/

/-- Marking state maintained by the discovery scan at position `i`: entries
below the old length `L` already record primality; an entry `j ≥ L` is marked
exactly when some prime below `i` divides it properly. -/
def scanMarked (L i j : Nat) : Prop :=
  if j < L then ¬ Nat.Prime j else ∃ p, Nat.Prime p ∧ p ∣ j ∧ p ≠ j ∧ p < i

theorem exists_proper_prime_dvd {j : Nat} (h2 : 2 ≤ j) (h : ¬ Nat.Prime j) :
    ∃ p, Nat.Prime p ∧ p ∣ j ∧ p ≠ j ∧ p < j := by
  have hne : j ≠ 1 := by omega
  have hprime := Nat.minFac_prime hne
  have hdvd := Nat.minFac_dvd j
  have hneq : j.minFac ≠ j := fun heq => h (Nat.prime_def_minFac.2 ⟨h2, heq⟩)
  exact ⟨j.minFac, hprime, hdvd,  hneq,
    Nat.lt_of_le_of_ne (Nat.le_of_dvd (by omega) hdvd) hneq⟩

theorem not_prime_of_proper_prime_dvd {j p : Nat} (hp : Nat.Prime p) (hdvd : p ∣ j)
    (hne : p ≠ j) : ¬ Nat.Prime j :=
  fun hj => hne ((hj.eq_one_or_self_of_dvd p hdvd).resolve_left hp.ne_one)

theorem scanAux_primes_extend (fuel : Nat) (sieve : List Bool) (primes : List Nat) (i : Nat) :
    primes <+: (scanAux fuel sieve primes i).2 := by
  induction fuel generalizing sieve primes i with
  | zero => exact List.prefix_refl _
  | succ fuel ih =>
    simp only [scanAux]
    split
    · split
      · exact ih _ _ _
      · exact List.IsPrefix.trans (List.prefix_append _ _) (ih _ _ _)
    · exact List.prefix_refl _

theorem scanAux_spec (L : Nat) (hL : 4 ≤ L) :
    ∀ (fuel : Nat) (sieve : List Bool) (primes : List Nat) (i : Nat),
    L ≤ i → i ≤ sieve.length → sieve.length ≤ i + fuel →
    (∀ j, j < sieve.length → ((sieve.getD j true = true) ↔ scanMarked L i j)) →
    (∀ p, p ∈ primes ↔ (Nat.Prime p ∧ p < i)) →
    List.Pairwise (· < ·) primes →
    ((scanAux fuel sieve primes i).1.length = sieve.length ∧
     (∀ j, j < sieve.length →
       (((scanAux fuel sieve primes i).1.getD j true = true) ↔ scanMarked L sieve.length j)) ∧
     (∀ p, p ∈ (scanAux fuel sieve primes i).2 ↔ (Nat.Prime p ∧ p < sieve.length)) ∧
     List.Pairwise (· < ·) (scanAux fuel sieve primes i).2) := by
  intro fuel
  induction fuel with
  | zero =>
    intro sieve primes i hLi hilen hfuel hsieve hprimes hsorted
    have hieq : i = sieve.length := by omega
    subst hieq
    exact ⟨rfl, hsieve, hprimes, hsorted⟩
  | succ fuel ih =>
    intro sieve primes i hLi hilen hfuel hsieve hprimes hsorted
    simp only [scanAux]
    split
    · rename_i hi
      split
      · -- sieve[i] is already marked: i is not prime, move on
        rename_i hmarked
        have hmarked2 : scanMarked L i i := (hsieve i hi).1 hmarked
        have hinotprime : ¬ Nat.Prime i := by
          rw [scanMarked, if_neg (by omega)] at hmarked2
          obtain ⟨p, hp, hdvd, hne, _⟩ := hmarked2
          exact not_prime_of_proper_prime_dvd hp hdvd hne
        refine ih sieve primes (i + 1) (by omega) (by omega) (by omega) ?_ ?_ hsorted
        · intro j hj
          rw [hsieve j hj]
          unfold scanMarked
          split
          · exact Iff.rfl
          · constructor
            · rintro ⟨p, hp⟩
              exact ⟨p, hp.1, hp.2.1, hp.2.2.1, by omega⟩
            · rintro ⟨p, hp1, hp2, hp3, hp4⟩
              refine ⟨p, hp1, hp2, hp3, ?_⟩
              rcases Nat.lt_or_ge p i with h | h
              · exact h
              · exact absurd (by omega : p = i) (fun he => hinotprime (he ▸ hp1))
        · intro p
          rw [hprimes p]
          constructor
          · rintro ⟨h1, h2⟩; exact ⟨h1, by omega⟩
          · rintro ⟨h1, h2⟩
            refine ⟨h1, ?_⟩
            rcases Nat.lt_or_ge p i with h | h
            · exact h
            · exact absurd (by omega : p = i) (fun he => hinotprime (he ▸ h1))
      · -- sieve[i] is unmarked: i is a new prime; mark its multiples from i² and append
        rename_i hunmarked
        have hunmarked2 : ¬ scanMarked L i i := fun hm =>
          hunmarked ((hsieve i hi).2 hm)
        have hiprime : Nat.Prime i := by
          by_contra hnp
          obtain ⟨p, hp1, hp2, hp3, hp4⟩ := exists_proper_prime_dvd (by omega) hnp
          exact hunmarked2 (by rw [scanMarked, if_neg (by omega)]; exact ⟨p, hp1, hp2, hp3, hp4⟩)
        have hipos : 1 ≤ i := by omega
        have hlen2 : (markMultiples sieve (i * i) i).length = sieve.length :=
          markMultiples_length _ _ _
        have hspec := ih (markMultiples sieve (i * i) i) (primes ++ [i]) (i + 1)
          (by omega) (by omega) (by omega) ?_ ?_ ?_
        · rw [hlen2] at hspec
          exact hspec
        · -- new sieve characterization
          intro j hj
          rw [hlen2] at hj
          rw [markMultiples_getD _ _ _ _ _ hipos]
          have hii : i ≤ i * i := Nat.le_mul_of_pos_left i (by omega)
          by_cases hjL : j < L
          · rw [if_neg (by rintro ⟨h1, h2, h3⟩; omega)]
            rw [scanMarked, if_pos hjL]
            have := hsieve j hj
            rwa [scanMarked, if_pos hjL] at this
          · rw [scanMarked, if_neg hjL]
            by_cases hnew : i * i ≤ j ∧ j < sieve.length ∧ i ∣ j - i * i
            · rw [if_pos hnew]
              have hidvd : i ∣ j := by
                have : j = (j - i * i) + i * i := by omega
                rw [this]
                exact Nat.dvd_add hnew.2.2 (Dvd.intro i rfl)
              simp only [true_iff]
              exact ⟨i, hiprime, hidvd, by nlinarith, by omega⟩
            · rw [if_neg hnew]
              rw [hsieve j hj]
              rw [scanMarked, if_neg hjL]
              constructor
              · rintro ⟨p, hp1, hp2, hp3, hp4⟩
                exact ⟨p, hp1, hp2, hp3, by omega⟩
              · rintro ⟨p, hp1, hp2, hp3, hp4⟩
                rcases Nat.lt_or_ge p i with h | h
                · exact ⟨p, hp1, hp2, hp3, h⟩
                · -- p = i: j is a multiple of i below i², so a smaller prime divides it
                  have hpi : p = i := by omega
                  subst hpi
                  by_cases hsq : p * p ≤ j
                  · exact absurd ⟨hsq, hj, Nat.dvd_sub' hp2 (Dvd.intro p rfl)⟩ hnew
                  · obtain ⟨a, ha⟩ := hp2
                    have ha0 : a ≠ 0 := by rintro rfl; omega
                    have ha1 : a ≠ 1 := by rintro rfl; omega
                    have hap : a < p := by nlinarith
                    have haprime := Nat.minFac_prime ha1
                    have hadvd : a.minFac ∣ j := ha ▸ Dvd.dvd.mul_left (Nat.minFac_dvd a) p
                    have hale : a.minFac ≤ a := Nat.minFac_le (by omega)
                    refine ⟨a.minFac, haprime, hadvd, ?_, by omega⟩
                    have : 2 * a ≤ j := by
                      rw [ha]
                      have : 2 ≤ p := hiprime.two_le
                      nlinarith
                    omega
        · -- new primes characterization
          intro p
          rw [List.mem_append, List.mem_singleton, hprimes p]
          constructor
          · rintro (⟨h1, h2⟩ | rfl)
            · exact ⟨h1, by omega⟩
            · exact ⟨hiprime, by omega⟩
          · rintro ⟨h1, h2⟩
            rcases Nat.lt_or_ge p i with h | h
            · exact Or.inl ⟨h1, h⟩
            · exact Or.inr (by omega)
        · -- new primes sortedness
          rw [List.pairwise_append]
          refine ⟨hsorted, List.pairwise_singleton _ _, ?_⟩
          intro a ha b hb
          rw [List.mem_singleton] at hb
          subst hb
          exact ((hprimes a).1 ha).2
    · rename_i hi
      have hieq : i = sieve.length := by omega
      subst hieq
      exact ⟨rfl, hsieve, hprimes, hsorted⟩

/-- At the end of the scan the abstract marking is exactly non-primality. -/
theorem scanMarked_final (L len j : Nat) (hL : 4 ≤ L) (hj : j < len) :
    scanMarked L len j ↔ ¬ Nat.Prime j := by
  unfold scanMarked
  split
  · exact Iff.rfl
  · rename_i hjL
    constructor
    · rintro ⟨p, hp1, hp2, hp3, _⟩
      exact not_prime_of_proper_prime_dvd hp1 hp2 hp3
    · intro h
      obtain ⟨p, hp1, hp2, hp3, hp4⟩ := exists_proper_prime_dvd (by omega) h
      exact ⟨p, hp1, hp2, hp3, by omega⟩

/-! ## `nextPowerOfTwo` -/

theorem nextPowerOfTwoAux_spec :
    ∀ (fuel n : Nat), n ≤ fuel →
    (n ≤ nextPowerOfTwoAux fuel n ∧ (∃ k, nextPowerOfTwoAux fuel n = 2 ^ k) ∧
     ∀ m, n ≤ 2 ^ m → nextPowerOfTwoAux fuel n ≤ 2 ^ m) := by
  intro fuel
  induction fuel with
  | zero =>
    intro n hn
    have : n = 0 := by omega
    subst this
    exact ⟨by omega, ⟨0, rfl⟩, fun m _ => Nat.one_le_two_pow⟩
  | succ fuel ih =>
    intro n hn
    simp only [nextPowerOfTwoAux]
    split
    · exact ⟨by omega, ⟨0, rfl⟩, fun m _ => Nat.one_le_two_pow⟩
    · rename_i hn1
      have hrec := ih ((n + 1) / 2) (by omega)
      refine ⟨by omega, ?_, ?_⟩
      · obtain ⟨k, hk⟩ := hrec.2.1
        exact ⟨k + 1, by rw [hk, Nat.pow_succ, Nat.mul_comm]⟩
      · intro m hm
        rcases m with _ | m
        · simp at hm; omega
        · have h2 : (n + 1) / 2 ≤ 2 ^ m := by
            have : 2 ^ (m + 1) = 2 ^ m * 2 := Nat.pow_succ 2 m
            omega
          have := hrec.2.2 m h2
          rw [Nat.pow_succ]
          omega

theorem nextPowerOfTwo_ge (n : Nat) : n ≤ nextPowerOfTwo n :=
  (nextPowerOfTwoAux_spec n n (Nat.le_refl n)).1

theorem nextPowerOfTwo_pow (n : Nat) : ∃ k, nextPowerOfTwo n = 2 ^ k :=
  (nextPowerOfTwoAux_spec n n (Nat.le_refl n)).2.1

theorem nextPowerOfTwo_min (n m : Nat) (h : n ≤ 2 ^ m) : nextPowerOfTwo n ≤ 2 ^ m :=
  (nextPowerOfTwoAux_spec n n (Nat.le_refl n)).2.2 m h

/-! ## The engine invariant -/

/-- Invariant of every reachable engine state: the sieve length is a power of
two at least 4, the sieve records primality exactly, the primes list contains
exactly the primes below the sieve length, and the primes list is strictly
increasing. -/
def EngineInv (s : Primes) : Prop :=
  4 ≤ s.sieve.length ∧ (∃ k, s.sieve.length = 2 ^ k) ∧
  (∀ j, j < s.sieve.length → ((s.sieve.getD j true = false) ↔ Nat.Prime j)) ∧
  (∀ p, p ∈ s.primes ↔ (Nat.Prime p ∧ p < s.sieve.length)) ∧
  List.Pairwise (· < ·) s.primes

theorem Inv_new : EngineInv Primes.new := by
  refine ⟨by decide, ⟨2, by decide⟩, ?_, ?_, ?_⟩
  · intro j hj
    have hj4 : j < 4 := by simpa [Primes.new] using hj
    interval_cases j <;> norm_num [Primes.new]
  · intro p
    simp only [Primes.new, List.mem_cons, List.not_mem_nil, or_false]
    constructor
    · rintro (rfl | rfl)
      · exact ⟨by norm_num, by norm_num⟩
      · exact ⟨by norm_num, by norm_num⟩
    · rintro ⟨hp, hlt⟩
      have h2 := hp.two_le
      have h4 : p < 4 := by simpa using hlt
      interval_cases p
      · exact Or.inl rfl
      · exact Or.inr rfl
  · simp [Primes.new]

theorem getD_replicate (k m : Nat) (x d : Bool) :
    (List.replicate k x).getD m d = if m < k then x else d := by
  rw [List.getD_eq_getElem?_getD, List.getElem?_replicate]
  split <;> rfl

theorem scanAux_length (fuel : Nat) (sieve : List Bool) (primes : List Nat) (i : Nat) :
    (scanAux fuel sieve primes i).1.length = sieve.length := by
  induction fuel generalizing sieve primes i with
  | zero => rfl
  | succ fuel ih =>
    simp only [scanAux]
    split
    · split
      · exact ih _ _ _
      · rw [ih, markMultiples_length]
    · rfl

theorem generate_to_length (s : Primes) (n : Nat) :
    (s.generate_to n).sieve.length =
      if n < s.sieve.length then s.sieve.length else nextPowerOfTwo (n + 1) := by
  unfold Primes.generate_to
  split
  · rfl
  · rename_i h
    simp only [scanAux_length, propagatePrimes_length, List.length_append,
      List.length_replicate]
    have := nextPowerOfTwo_ge (n + 1)
    omega

theorem generate_to_length_le (s : Primes) (n : Nat) :
    s.sieve.length ≤ (s.generate_to n).sieve.length := by
  rw [generate_to_length]
  split
  · exact Nat.le_refl _
  · have := nextPowerOfTwo_ge (n + 1)
    omega

theorem generate_to_length_gt (s : Primes) (n : Nat) :
    n < (s.generate_to n).sieve.length := by
  rw [generate_to_length]
  split
  · omega
  · have := nextPowerOfTwo_ge (n + 1)
    omega

theorem generate_to_primes_extend (s : Primes) (n : Nat) :
    s.primes <+: (s.generate_to n).primes := by
  unfold Primes.generate_to
  split
  · exact List.prefix_refl _
  · exact scanAux_primes_extend _ _ _ _

/-- The central preservation theorem: `generate_to` keeps the engine invariant. -/
theorem Inv_generate_to (s : Primes) (hs : EngineInv s) (n : Nat) : EngineInv (s.generate_to n) := by
  obtain ⟨hlen4, ⟨k, hk⟩, hsieve, hmem, hsorted⟩ := hs
  unfold Primes.generate_to
  split
  · exact ⟨hlen4, ⟨k, hk⟩, hsieve, hmem, hsorted⟩
  · rename_i hno
    simp only
    set L := s.sieve.length with hL
    set N := nextPowerOfTwo (n + 1) with hN
    have hLn : L ≤ n := by omega
    have hNn : n + 1 ≤ N := nextPowerOfTwo_ge (n + 1)
    have hLN : L < N := by omega
    have hglen : (s.sieve ++ List.replicate (N - L) false).length = N := by
      simp only [List.length_append, List.length_replicate]
      omega
    have hggetD : ∀ j, j < N →
        (s.sieve ++ List.replicate (N - L) false).getD j true =
          if j < L then s.sieve.getD j true else false := by
      intro j hj
      by_cases hjL : j < L
      · rw [if_pos hjL, List.getD_append _ _ _ _ hjL]
      · rw [if_neg hjL, List.getD_append_right _ _ _ _ (by omega), getD_replicate,
          if_pos (by omega)]
    have hp1 : ∀ p ∈ s.primes, 1 ≤ p := fun p hp => ((hmem p).1 hp).1.two_le.trans' (by omega)
    have h2getD : ∀ j, j < N →
        ((propagatePrimes (s.sieve ++ List.replicate (N - L) false) L s.primes).getD j true
          = true ↔ scanMarked L L j) := by
      intro j hj
      rw [propagatePrimes_getD _ _ _ hp1, hglen]
      unfold scanMarked
      by_cases hjL : j < L
      · rw [if_neg (by rintro ⟨p, _, _, h, _⟩; omega), if_pos hjL, hggetD j hj, if_pos hjL]
        have := hsieve j (by omega)
        constructor
        · intro htrue hprime
          rw [(this).2 hprime] at htrue
          exact absurd htrue (by simp)
        · intro hnp
          cases hb : s.sieve.getD j true
          · exact absurd ((this).1 hb) hnp
          · rfl
      · rw [if_neg hjL]
        by_cases hex : ∃ p ∈ s.primes, p ∣ j ∧ L ≤ j ∧ j < N
        · rw [if_pos hex]
          obtain ⟨p, hpmem, hpd, hLj, _⟩ := hex
          obtain ⟨hpp, hpL⟩ := (hmem p).1 hpmem
          exact ⟨fun _ => ⟨p, hpp, hpd, by omega, hpL⟩, fun _ => rfl⟩
        · rw [if_neg hex, hggetD j hj, if_neg hjL]
          constructor
          · intro h; exact absurd h (by simp)
          · rintro ⟨p, hpp, hpd, hpne, hpL⟩
            exact absurd ⟨p, (hmem p).2 ⟨hpp, hpL⟩, hpd, by omega, hj⟩ hex
    have hplen : (propagatePrimes (s.sieve ++ List.replicate (N - L) false) L
        s.primes).length = N := by
      rw [propagatePrimes_length, hglen]
    have hscan := scanAux_spec L hlen4 N
      (propagatePrimes (s.sieve ++ List.replicate (N - L) false) L s.primes)
      s.primes L (Nat.le_refl L)
      (by omega)
      (by omega)
      (by rw [hplen]; exact h2getD)
      (by intro p; rw [hmem p])
      hsorted
    rw [hplen] at hscan
    rw [hplen]
    obtain ⟨hslen, hsgetD, hsmem, hssorted⟩ := hscan
    refine ⟨?_, ?_, ?_, ?_, hssorted⟩
    · show 4 ≤ (scanAux N _ s.primes L).1.length
      omega
    · obtain ⟨k2, hk2⟩ := nextPowerOfTwo_pow (n + 1)
      exact ⟨k2, by show (scanAux N _ s.primes L).1.length = 2 ^ k2; rw [hslen]; exact hk2⟩
    · intro j hj
      rw [show (Primes.mk (scanAux N (propagatePrimes (s.sieve ++
          List.replicate (N - L) false) L s.primes) s.primes L).1
          (scanAux N (propagatePrimes (s.sieve ++ List.replicate (N - L) false) L
          s.primes) s.primes L).2).sieve.length = N from hslen] at hj
      have := hsgetD j hj
      rw [scanMarked_final L N j hlen4 hj] at this
      constructor
      · intro hfalse
        by_contra hnp
        rw [(this).2 hnp] at hfalse
        exact absurd hfalse (by simp)
      · intro hprime
        cases hb : (scanAux N _ s.primes L).1.getD j true
        · rfl
        · exact absurd ((this).1 hb) (fun h => h hprime)
    · intro p
      show p ∈ (scanAux N _ s.primes L).2 ↔ _ ∧ p < (scanAux N _ s.primes L).1.length
      rw [hsmem p, hslen]

/-! ## Correctness of `is_prime` -/

/-- Outcome of the trial-division loop, assuming the list holds exactly the
primes in `[lo, W)` in increasing order and all primes below `lo` are already
known not to divide `n`. -/
theorem trialDivision_spec (n W : Nat) (hW : 4 ≤ W) (hWn : W ≤ n) :
    ∀ (qs : List Nat) (lo : Nat),
    (∀ p, p ∈ qs ↔ (Nat.Prime p ∧ lo ≤ p ∧ p < W)) →
    List.Pairwise (· < ·) qs →
    (∀ r, Nat.Prime r → r < lo → ¬ r ∣ n) →
    (match trialDivision n qs with
     | some true => Nat.Prime n
     | some false => ¬ Nat.Prime n
     | none => (∀ p ∈ qs, p * p ≤ n ∧ ¬ p ∣ n) ∧
               (∀ r, Nat.Prime r → r < W → ¬ r ∣ n)) := by
  intro qs
  induction qs with
  | nil =>
    intro lo hq _ hclear
    refine ⟨by simp, ?_⟩
    intro r hr hrW hrdvd
    rcases Nat.lt_or_ge r lo with h | h
    · exact hclear r hr h hrdvd
    · exact absurd ((hq r).2 ⟨hr, h, hrW⟩) (List.not_mem_nil r)
  | cons p ps ih =>
    intro lo hq hsorted hclear
    obtain ⟨hpp, hplo, hpW⟩ := (hq p).1 (List.mem_cons_self p ps)
    have hsorted2 := (List.pairwise_cons.1 hsorted).2
    have hpslt := (List.pairwise_cons.1 hsorted).1
    have hq2 : ∀ x, x ∈ ps ↔ (Nat.Prime x ∧ p + 1 ≤ x ∧ x < W) := by
      intro x
      constructor
      · intro hx
        obtain ⟨h1, _, h3⟩ := (hq x).1 (List.mem_cons_of_mem p hx)
        exact ⟨h1, hpslt x hx, h3⟩
      · rintro ⟨h1, h2, h3⟩
        rcases List.mem_cons.1 ((hq x).2 ⟨h1, by omega, h3⟩) with rfl | hx
        · omega
        · exact hx
    rw [trialDivision]
    by_cases hsq : p * p > n
    · -- p * p > n: all primes up to √n have been cleared, so n is prime
      rw [if_pos hsq]
      show Nat.Prime n
      by_contra hnp
      have hn1 : n ≠ 1 := by omega
      have hq0 : 0 < n := by omega
      have hmfp := Nat.minFac_prime hn1
      have hmfd := Nat.minFac_dvd n
      have hmfsq : n.minFac * n.minFac ≤ n := by
        have := Nat.minFac_sq_le_self hq0 hnp
        rwa [Nat.pow_two] at this
      have hmflt : n.minFac < p := by
        by_contra hge
        push_neg at hge
        have h1 : p * p ≤ n.minFac * n.minFac := Nat.mul_le_mul hge hge
        omega
      rcases Nat.lt_or_ge n.minFac lo with h | h
      · exact hclear n.minFac hmfp h hmfd
      · rcases List.mem_cons.1 ((hq n.minFac).2 ⟨hmfp, h, by omega⟩) with heq | hx
        · omega
        · exact absurd (hpslt _ hx) (by omega)
    · rw [if_neg hsq]
      push_neg at hsq
      by_cases hdvd : n % p = 0
      · -- n % p = 0: p is a proper prime factor
        rw [if_pos hdvd]
        show ¬ Nat.Prime n
        have hpd : p ∣ n := Nat.dvd_of_mod_eq_zero hdvd
        have h2p := hpp.two_le
        have hpn : p < n := by
          have : p * 2 ≤ p * p := Nat.mul_le_mul_left p h2p
          omega
        exact not_prime_of_proper_prime_dvd hpp hpd (by omega)
      · -- continue with the rest of the list
        rw [if_neg hdvd]
        have hclear2 : ∀ r, Nat.Prime r → r < p + 1 → ¬ r ∣ n := by
          intro r hr hrp hrd
          rcases Nat.lt_or_ge r lo with h | h
          · exact hclear r hr h hrd
          · rcases List.mem_cons.1 ((hq r).2 ⟨hr, h, by omega⟩) with rfl | hx
            · exact hdvd (Nat.mod_eq_zero_of_dvd hrd)
            · exact absurd (hpslt _ hx) (by omega)
        have hthis := ih (p + 1) hq2 hsorted2 hclear2
        rcases htd : trialDivision n ps with _ | b
        · rw [htd] at hthis
          refine ⟨?_, hthis.2⟩
          intro x hx
          rcases List.mem_cons.1 hx with rfl | hx
          · exact ⟨hsq, fun hd => hdvd (Nat.mod_eq_zero_of_dvd hd)⟩
          · exact hthis.1 x hx
        · rw [htd] at hthis
          cases b
          · exact hthis
          · exact hthis

/-- Every prime at least 5 is congruent to 1 or 5 modulo 6. -/
theorem prime_mod_six {r : Nat} (hr : Nat.Prime r) (h5 : 5 ≤ r) :
    r % 6 = 1 ∨ r % 6 = 5 := by
  have h2 : ¬ 2 ∣ r := by
    intro h
    rcases (Nat.Prime.eq_one_or_self_of_dvd hr 2 h) with h | h <;> omega
  have h3 : ¬ 3 ∣ r := by
    intro h
    rcases (Nat.Prime.eq_one_or_self_of_dvd hr 3 h) with h | h <;> omega
  omega

/-- Correctness of the wheel loop: if every proper prime factor of `n` is at
least `number - 1` and the fuel reaches past `√n`, the loop decides
primality of `n`. -/
theorem wheelAux_correct (n : Nat) (hn : 5 ≤ n) :
    ∀ (fuel number : Nat), number % 6 = 0 → 6 ≤ number →
    (∀ r, Nat.Prime r → r ∣ n → r ≠ n → number - 1 ≤ r) →
    n + 2 ≤ number + 6 * fuel →
    ((wheelAux n fuel number = true) ↔ Nat.Prime n) := by
  intro fuel
  induction fuel with
  | zero =>
    intro number h6 h6' hcov hfuel
    refine ⟨fun _ => ?_, fun _ => rfl⟩
    by_contra hnp
    have hmfp := Nat.minFac_prime (show n ≠ 1 by omega)
    have hmfne : n.minFac ≠ n := fun heq => hnp (Nat.prime_def_minFac.2 ⟨by omega, heq⟩)
    have hge := hcov n.minFac hmfp (Nat.minFac_dvd n) hmfne
    have hle := Nat.le_of_dvd (by omega) (Nat.minFac_dvd n)
    omega
  | succ fuel ih =>
    intro number h6 h6' hcov hfuel
    rw [wheelAux]
    by_cases hbreak : (number - 1) * (number - 1) > n
    · rw [if_pos hbreak]
      simp only [true_iff]
      by_contra hnp
      have hmfp := Nat.minFac_prime (show n ≠ 1 by omega)
      have hmfne : n.minFac ≠ n := fun heq => hnp (Nat.prime_def_minFac.2 ⟨by omega, heq⟩)
      have hge := hcov n.minFac hmfp (Nat.minFac_dvd n) hmfne
      have hmfsq : n.minFac * n.minFac ≤ n := by
        have := Nat.minFac_sq_le_self (show 0 < n by omega) hnp
        rwa [Nat.pow_two] at this
      have : (number - 1) * (number - 1) ≤ n.minFac * n.minFac :=
        Nat.mul_le_mul hge hge
      omega
    · rw [if_neg hbreak]
      push_neg at hbreak
      by_cases hdiv : n % (number - 1) = 0 ∨ n % (number + 1) = 0
      · rw [if_pos hdiv]
        refine iff_of_false (by simp) ?_
        rcases hdiv with hd | hd
        · have hdvd : (number - 1) ∣ n := Nat.dvd_of_mod_eq_zero hd
          have hne : number - 1 ≠ n := by
            rintro heq
            rw [heq] at hbreak
            nlinarith
          intro hp
          rcases hp.eq_one_or_self_of_dvd (number - 1) hdvd with h | h <;> omega
        · have hdvd : (number + 1) ∣ n := Nat.dvd_of_mod_eq_zero hd
          have hne : number + 1 ≠ n := by
            rintro heq
            have h1 : number - 1 = n - 2 := by omega
            rw [h1] at hbreak
            have hm : 3 ≤ n - 2 := by omega
            have h2 : (n - 2) * 3 ≤ (n - 2) * (n - 2) := Nat.mul_le_mul_left _ hm
            omega
          intro hp
          rcases hp.eq_one_or_self_of_dvd (number + 1) hdvd with h | h <;> omega
      · rw [if_neg hdiv]
        push_neg at hdiv
        refine ih (number + 6) (by omega) (by omega) ?_ (by omega)
        intro r hr hrd hrne
        have hge := hcov r hr hrd hrne
        have hr5 : 5 ≤ r := by omega
        have hrm6 := prime_mod_six hr hr5
        have hrne1 : r ≠ number - 1 := by
          rintro rfl
          exact hdiv.1 (Nat.mod_eq_zero_of_dvd hrd)
        have hrne2 : r ≠ number + 1 := by
          rintro rfl
          exact hdiv.2 (Nat.mod_eq_zero_of_dvd hrd)
        omega

/-- `is_prime` decides primality on every invariant-satisfying state. -/
theorem is_prime_correct (s : Primes) (hs : EngineInv s) (n : Nat) :
    (s.is_prime n = true ↔ Nat.Prime n) := by
  obtain ⟨hlen4, _, hsieve, hmem, hsorted⟩ := hs
  unfold Primes.is_prime
  split
  · rename_i hcov
    rw [Bool.not_eq_true']
    exact hsieve n (by omega)
  · rename_i hncov
    split
    · rename_i hdiv23
      refine iff_of_false (by simp) ?_
      rcases hdiv23 with hd | hd
      · exact fun hp => by
          rcases hp.eq_one_or_self_of_dvd 2 (Nat.dvd_of_mod_eq_zero hd) with h | h <;> omega
      · exact fun hp => by
          rcases hp.eq_one_or_self_of_dvd 3 (Nat.dvd_of_mod_eq_zero hd) with h | h <;> omega
    · rename_i hdiv23
      push_neg at hdiv23
      have hWn : s.sieve.length ≤ n := by omega
      have hn5 : 5 ≤ n := by omega
      have hspec := trialDivision_spec n s.sieve.length hlen4 hWn s.primes 0
        (by
          intro p
          rw [hmem p]
          constructor
          · rintro ⟨h1, h2⟩; exact ⟨h1, by omega, h2⟩
          · rintro ⟨h1, _, h3⟩; exact ⟨h1, h3⟩)
        hsorted (by intro r _ h; omega)
      rcases htd : trialDivision n s.primes with _ | b
      · rw [htd] at hspec
        obtain ⟨hall, hclear⟩ := hspec
        have h3mem : 3 ∈ s.primes := (hmem 3).2 ⟨by norm_num, by omega⟩
        have hne : s.primes ≠ [] := fun h => by
          rw [h] at h3mem
          exact List.not_mem_nil 3 h3mem
        have hlastmem : (s.primes.getLast?).getD 0 ∈ s.primes := by
          rw [List.getLast?_eq_getLast_of_ne_nil hne, Option.getD_some]
          exact List.getLast_mem hne
        obtain ⟨hlastp, hlastlt⟩ := (hmem _).1 hlastmem
        have hrlarge : ∀ r, Nat.Prime r → r ∣ n → r ≠ n → s.sieve.length ≤ r := by
          intro r hr hrd hrne
          by_contra hlt
          push_neg at hlt
          exact hclear r hr hlt hrd
        simp only
        by_cases h61 : (s.primes.getLast?).getD 0 % 6 = 1
        · rw [if_pos h61]
          have hlast7 : 7 ≤ (s.primes.getLast?).getD 0 := by
            have := hlastp.two_le
            omega
          refine wheelAux_correct n hn5 (n + 2) _ (by omega) (by omega) ?_ (by omega)
          intro r hr hrd hrne
          have := hrlarge r hr hrd hrne
          omega
        · rw [if_neg h61]
          by_cases h65 : (s.primes.getLast?).getD 0 % 6 = 5
          · rw [if_pos h65]
            refine wheelAux_correct n hn5 (n + 2) _ (by omega) (by omega) ?_ (by omega)
            intro r hr hrd hrne
            have := hrlarge r hr hrd hrne
            omega
          · rw [if_neg h65]
            refine wheelAux_correct n hn5 (n + 2) 6 (by omega) (by omega) ?_ (by omega)
            intro r hr hrd hrne
            have hW := hrlarge r hr hrd hrne
            have hr4 : r ≠ 4 := fun h => by rw [h] at hr; norm_num at hr
            omega
      · rw [htd] at hspec
        cases b
        · exact iff_of_false (by simp) hspec
        · exact iff_of_true rfl hspec

/-! ## `generate_amount`: progress, preservation, and termination -/

/-- Doubling the sieve always discovers at least one new prime (Bertrand's
postulate), so the `generate_amount` loop makes progress. -/
theorem primes_grow (s : Primes) (hs : EngineInv s) :
    s.primes.length < (s.generate_to s.sieve.length).primes.length := by
  obtain ⟨hlen4, ⟨k, hk⟩, _, hmem, _⟩ := id hs
  have hs2 := Inv_generate_to s hs s.sieve.length
  obtain ⟨_, _, _, hmem2, _⟩ := hs2
  set L := s.sieve.length with hL
  have hN : (s.generate_to L).sieve.length = nextPowerOfTwo (L + 1) := by
    rw [generate_to_length, if_neg (by omega)]
  have h2L : 2 * L ≤ (s.generate_to L).sieve.length := by
    obtain ⟨m, hm⟩ := nextPowerOfTwo_pow (L + 1)
    have hge : L + 1 ≤ nextPowerOfTwo (L + 1) := nextPowerOfTwo_ge (L + 1)
    have hkm : k < m := by
      by_contra hle
      push_neg at hle
      have : (2 : Nat) ^ m ≤ 2 ^ k := Nat.pow_le_pow_right (by omega) hle
      omega
    have : (2 : Nat) ^ (k + 1) ≤ 2 ^ m := Nat.pow_le_pow_right (by omega) hkm
    rw [hN, hm]
    rw [Nat.pow_succ] at this
    omega
  obtain ⟨p, hp, hp1, hp2⟩ := Nat.exists_prime_lt_and_le_two_mul (L - 1) (by omega)
  have hpL : L ≤ p := by omega
  have hpN : p < (s.generate_to L).sieve.length := by omega
  have hpmem : p ∈ (s.generate_to L).primes := (hmem2 p).2 ⟨hp, hpN⟩
  have hpnot : p ∉ s.primes := fun h => by
    have := (hmem p).1 h
    omega
  obtain ⟨t, ht⟩ := generate_to_primes_extend s L
  have htne : p ∈ t := by
    rw [← ht] at hpmem
    rcases List.mem_append.1 hpmem with h | h
    · exact absurd h hpnot
    · exact h
  have : 1 ≤ t.length := List.length_pos.2 (fun h => by rw [h] at htne; exact List.not_mem_nil p htne)
  calc s.primes.length < s.primes.length + t.length := by omega
    _ = (s.generate_to L).primes.length := by rw [← ht, List.length_append]

theorem Inv_generateAmountAux (fuel : Nat) :
    ∀ (s : Primes) (amount : Nat), EngineInv s →
    EngineInv (generateAmountAux fuel s amount) := by
  induction fuel with
  | zero => intro s amount hs; exact hs
  | succ fuel ih =>
    intro s amount hs
    rw [generateAmountAux]
    split
    · exact ih _ amount (Inv_generate_to s hs _)
    · exact hs

theorem Inv_generate_amount (s : Primes) (amount : Nat) (hs : EngineInv s) :
    EngineInv (s.generate_amount amount) :=
  Inv_generateAmountAux _ s amount hs

theorem generateAmountAux_count (fuel : Nat) :
    ∀ (s : Primes) (amount : Nat), EngineInv s →
    amount + 1 ≤ s.primes.length + fuel →
    amount + 1 ≤ (generateAmountAux fuel s amount).primes.length := by
  induction fuel with
  | zero =>
    intro s amount _ hf
    simpa [generateAmountAux] using hf
  | succ fuel ih =>
    intro s amount hs hf
    rw [generateAmountAux]
    split
    · rename_i hcond
      exact ih _ amount (Inv_generate_to s hs _)
        (by have := primes_grow s hs; omega)
    · rename_i hcond
      omega

/-- `generate_amount` guarantees at least `amount + 1` discovered primes. -/
theorem generate_amount_count (s : Primes) (amount : Nat) (hs : EngineInv s) :
    amount + 1 ≤ (s.generate_amount amount).primes.length :=
  generateAmountAux_count (amount + 1) s amount hs (by omega)

/-- The `generate_amount` loop is insensitive to extra fuel: it terminates. -/
theorem generateAmountAux_stable (fuel1 : Nat) :
    ∀ (fuel2 : Nat) (s : Primes) (amount : Nat), EngineInv s →
    amount + 1 ≤ s.primes.length + fuel1 →
    amount + 1 ≤ s.primes.length + fuel2 →
    generateAmountAux fuel1 s amount = generateAmountAux fuel2 s amount := by
  induction fuel1 with
  | zero =>
    intro fuel2 s amount hs h1 h2
    have hstop : ¬ s.primes.length ≤ amount := by omega
    cases fuel2 with
    | zero => rfl
    | succ fuel2 =>
      rw [generateAmountAux, generateAmountAux, if_neg hstop]
  | succ fuel1 ih =>
    intro fuel2 s amount hs h1 h2
    cases fuel2 with
    | zero =>
      have hstop : ¬ s.primes.length ≤ amount := by omega
      rw [generateAmountAux, generateAmountAux, if_neg hstop]
    | succ fuel2 =>
      rw [generateAmountAux]
      conv_rhs => rw [generateAmountAux]
      split
      · rename_i hcond
        exact ih fuel2 _ amount (Inv_generate_to s hs _)
          (by have := primes_grow s hs; omega)
          (by have := primes_grow s hs; omega)
      · rfl

theorem generateAmountAux_primes_extend (fuel : Nat) :
    ∀ (s : Primes) (amount : Nat),
    s.primes <+: (generateAmountAux fuel s amount).primes := by
  induction fuel with
  | zero => intro s amount; exact List.prefix_refl _
  | succ fuel ih =>
    intro s amount
    rw [generateAmountAux]
    split
    · exact List.IsPrefix.trans (generate_to_primes_extend s _) (ih _ amount)
    · exact List.prefix_refl _

theorem generateAmountAux_sieve_le (fuel : Nat) :
    ∀ (s : Primes) (amount : Nat),
    s.sieve.length ≤ (generateAmountAux fuel s amount).sieve.length := by
  induction fuel with
  | zero => intro s amount; exact Nat.le_refl _
  | succ fuel ih =>
    intro s amount
    rw [generateAmountAux]
    split
    · exact Nat.le_trans (generate_to_length_le s _) (ih _ amount)
    · exact Nat.le_refl _

/-! ## Reachable states -/

/-- Engine states reachable from `Primes::new` by growth calls. -/
inductive Reachable : Primes → Prop
  | new : Reachable Primes.new
  | generate_to (s : Primes) (n : Nat) : Reachable s → Reachable (s.generate_to n)
  | generate_amount (s : Primes) (k : Nat) : Reachable s → Reachable (s.generate_amount k)

theorem Reachable.inv {s : Primes} (h : Reachable s) : EngineInv s := by
  induction h with
  | new => exact Inv_new
  | generate_to s n _ ih => exact Inv_generate_to s ih n
  | generate_amount s k _ ih => exact Inv_generate_amount s k ih

/-! ## Bounds on the squares computed by `is_prime` -/

theorem twelve_mul_le (m : Nat) : 12 * m ≤ m * m + 36 := by
  zify
  nlinarith [sq_nonneg ((m : Int) - 6)]

/-- Every square computed by the trial-division loop is at most `4n`, as long
as the head of the (complete, sorted) prime list satisfies this: Bertrand's
postulate bounds the first prime whose square exceeds `n`. -/
theorem trialSquares_bound (n W : Nat) :
    ∀ (qs : List Nat) (lo : Nat),
    (∀ p, p ∈ qs ↔ (Nat.Prime p ∧ lo ≤ p ∧ p < W)) →
    List.Pairwise (· < ·) qs →
    (∀ p, qs.head? = some p → p * p ≤ 4 * n) →
    ∀ sq ∈ trialSquares n qs, sq ≤ 4 * n + 72 := by
  intro qs
  induction qs with
  | nil => intro lo _ _ _ sq hsq; simp [trialSquares] at hsq
  | cons p ps ih =>
    intro lo hq hsorted hhead sq hsq
    have hphead := hhead p rfl
    obtain ⟨hpp, hplo, hpW⟩ := (hq p).1 (List.mem_cons_self p ps)
    have hsorted2 := (List.pairwise_cons.1 hsorted).2
    have hpslt := (List.pairwise_cons.1 hsorted).1
    have hq2 : ∀ x, x ∈ ps ↔ (Nat.Prime x ∧ p + 1 ≤ x ∧ x < W) := by
      intro x
      constructor
      · intro hx
        obtain ⟨h1, _, h3⟩ := (hq x).1 (List.mem_cons_of_mem p hx)
        exact ⟨h1, hpslt x hx, h3⟩
      · rintro ⟨h1, h2, h3⟩
        rcases List.mem_cons.1 ((hq x).2 ⟨h1, by omega, h3⟩) with rfl | hx
        · omega
        · exact hx
    rw [trialSquares] at hsq
    by_cases hsq1 : p * p > n
    · rw [if_pos hsq1] at hsq
      rcases List.mem_singleton.1 hsq with rfl
      omega
    · rw [if_neg hsq1] at hsq
      push_neg at hsq1
      by_cases hdvd : n % p = 0
      · rw [if_pos hdvd] at hsq
        rcases List.mem_singleton.1 hsq with rfl
        omega
      · rw [if_neg hdvd] at hsq
        rcases List.mem_cons.1 hsq with rfl | hsq
        · omega
        · refine ih (p + 1) hq2 hsorted2 ?_ sq hsq
          intro x hx
          cases ps with
          | nil => simp at hx
          | cons x2 ps2 =>
            have hx2 : x2 = x := by simpa using hx
            cases hx2
            obtain ⟨hx2p, hx2lo, hx2W⟩ := (hq2 x).1 (List.mem_cons_self x ps2)
            obtain ⟨pB, hpB, hpB1, hpB2⟩ :=
              Nat.exists_prime_lt_and_le_two_mul p hpp.ne_zero
            have hx2le : x ≤ 2 * p := by
              by_contra hgt
              push_neg at hgt
              have hpBW : pB < W := by omega
              have hpBmem : pB ∈ x :: ps2 := (hq2 pB).2 ⟨hpB, by omega, hpBW⟩
              rcases List.mem_cons.1 hpBmem with rfl | hmem2
              · omega
              · have := (List.pairwise_cons.1 hsorted2).1 pB hmem2
                omega
            have : x * x ≤ (2 * p) * (2 * p) := Nat.mul_le_mul hx2le hx2le
            have h4 : (2 * p) * (2 * p) = 4 * (p * p) := by ring
            omega

/-- Every square computed by the wheel loop is at most `2n + 72`: the loop
breaks at the first candidate whose square exceeds `n`, and candidates advance
by 6. -/
theorem wheelSquaresAux_bound (n : Nat) :
    ∀ (fuel number : Nat), (number - 7) * (number - 7) ≤ n →
    ∀ sq ∈ wheelSquaresAux n fuel number, sq ≤ 2 * n + 72 := by
  intro fuel
  induction fuel with
  | zero => intro number _ sq hsq; simp [wheelSquaresAux] at hsq
  | succ fuel ih =>
    intro number hm sq hsq
    have hbound : (number - 1) * (number - 1) ≤ 2 * n + 72 := by
      have h1 : number - 1 ≤ (number - 7) + 6 := by omega
      have h2 : (number - 1) * (number - 1) ≤ ((number - 7) + 6) * ((number - 7) + 6) :=
        Nat.mul_le_mul h1 h1
      have h3 : ((number - 7) + 6) * ((number - 7) + 6) =
          (number - 7) * (number - 7) + 12 * (number - 7) + 36 := by ring
      have h4 := twelve_mul_le (number - 7)
      omega
    rw [wheelSquaresAux] at hsq
    by_cases hbreak : (number - 1) * (number - 1) > n
    · rw [if_pos hbreak] at hsq
      rcases List.mem_singleton.1 hsq with rfl
      exact hbound
    · rw [if_neg hbreak] at hsq
      push_neg at hbreak
      by_cases hdvd : n % (number - 1) = 0 ∨ n % (number + 1) = 0
      · rw [if_pos hdvd] at hsq
        rcases List.mem_singleton.1 hsq with rfl
        exact hbound
      · rw [if_neg hdvd] at hsq
        rcases List.mem_cons.1 hsq with rfl | hsq
        · exact hbound
        · refine ih (number + 6) ?_ sq hsq
          have he : number + 6 - 7 = number - 1 := by omega
          rw [he]
          exact hbreak

/-- On every invariant-satisfying state, all squares computed by `is_prime`
are bounded by `4n + 72`: arithmetic is exact whenever `4n + 72` fits in the
index type. -/
theorem isPrimeSquares_bound (s : Primes) (hs : EngineInv s) (n : Nat) :
    ∀ sq ∈ isPrimeSquares s n, sq ≤ 4 * n + 72 := by
  obtain ⟨hlen4, _, hsieve, hmem, hsorted⟩ := id hs
  unfold isPrimeSquares
  split
  · intro sq hsq; simp at hsq
  · rename_i hncov
    split
    · intro sq hsq; simp at hsq
    · rename_i hdiv23
      push_neg at hdiv23
      have hWn : s.sieve.length ≤ n := by omega
      have hqchar : ∀ p, p ∈ s.primes ↔ (Nat.Prime p ∧ 0 ≤ p ∧ p < s.sieve.length) := by
        intro p
        rw [hmem p]
        constructor
        · rintro ⟨h1, h2⟩; exact ⟨h1, by omega, h2⟩
        · rintro ⟨h1, _, h3⟩; exact ⟨h1, h3⟩
      have hhead : ∀ p, s.primes.head? = some p → p * p ≤ 4 * n := by
        intro p hp
        have h2mem : 2 ∈ s.primes := (hmem 2).2 ⟨by norm_num, by omega⟩
        cases hps : s.primes with
        | nil => rw [hps] at hp; simp at hp
        | cons q qs =>
          rw [hps] at hp
          have hq2 : q = p := by simpa using hp
          cases hq2
          rw [hps] at h2mem hsorted
          obtain ⟨hpp, _, _⟩ := (hqchar p).1 (hps ▸ List.mem_cons_self p qs)
          have hp2 : p = 2 := by
            rcases List.mem_cons.1 h2mem with h | h
            · omega
            · have := (List.pairwise_cons.1 hsorted).1 2 h
              have := hpp.two_le
              omega
          subst hp2
          omega
      have htrial := trialSquares_bound n s.sieve.length s.primes 0 hqchar hsorted hhead
      rcases htd : trialDivision n s.primes with _ | b
      · -- wheel case: also bound the wheel squares
        intro sq hsq
        simp only at hsq
        rcases List.mem_append.1 hsq with h | h
        · exact htrial sq h
        · -- start - 7 squared is at most n, because last² ≤ n
          have hspec := trialDivision_spec n s.sieve.length hlen4 hWn s.primes 0
            hqchar hsorted (by intro r _ hcontra; omega)
          rw [htd] at hspec
          have h3mem : 3 ∈ s.primes := (hmem 3).2 ⟨by norm_num, by omega⟩
          have hne : s.primes ≠ [] := fun hnil => by
            rw [hnil] at h3mem
            exact List.not_mem_nil 3 h3mem
          have hlastmem : (s.primes.getLast?).getD 0 ∈ s.primes := by
            rw [List.getLast?_eq_getLast_of_ne_nil hne, Option.getD_some]
            exact List.getLast_mem hne
          have hlastsq : (s.primes.getLast?).getD 0 * (s.primes.getLast?).getD 0 ≤ n :=
            (hspec.1 _ hlastmem).1
          have hwb : ∀ x ∈ wheelSquaresAux n (n + 2)
              (if (s.primes.getLast?).getD 0 % 6 = 1 then (s.primes.getLast?).getD 0 - 1
               else if (s.primes.getLast?).getD 0 % 6 = 5 then (s.primes.getLast?).getD 0 + 1
               else 6),
              x ≤ 2 * n + 72 := by
            refine wheelSquaresAux_bound n (n + 2) _ ?_
            split
            · refine Nat.le_trans (Nat.mul_le_mul ?_ ?_) hlastsq <;> omega
            · split
              · refine Nat.le_trans (Nat.mul_le_mul ?_ ?_) hlastsq <;> omega
              · simp
          have := hwb sq h
          omega
      · intro sq hsq
        exact htrial sq hsq

/-- The wheel loop is insensitive to extra fuel once the fuel reaches the
break point: it terminates. -/
theorem wheelAux_stable (n : Nat) :
    ∀ (fuel1 fuel2 number : Nat),
    n + 2 ≤ number + 6 * fuel1 → n + 2 ≤ number + 6 * fuel2 →
    wheelAux n fuel1 number = wheelAux n fuel2 number := by
  intro fuel1
  induction fuel1 with
  | zero =>
    intro fuel2 number h1 h2
    have hnum : n + 2 ≤ number := by omega
    cases fuel2 with
    | zero => rfl
    | succ fuel2 =>
      have hbig : number - 1 ≤ (number - 1) * (number - 1) :=
        Nat.le_mul_of_pos_left _ (by omega)
      rw [wheelAux, wheelAux, if_pos (by omega)]
  | succ fuel1 ih =>
    intro fuel2 number h1 h2
    cases fuel2 with
    | zero =>
      have hnum : n + 2 ≤ number := by omega
      have hbig : number - 1 ≤ (number - 1) * (number - 1) :=
        Nat.le_mul_of_pos_left _ (by omega)
      rw [wheelAux, wheelAux, if_pos (by omega)]
    | succ fuel2 =>
      rw [wheelAux]
      conv_rhs => rw [wheelAux]
      split
      · rfl
      · split
        · rfl
        · exact ih fuel2 (number + 6) (by omega) (by omega)

/-! ## The claims -/

/-- C1: for every unsigned `n` and every engine state reachable from
`Primes::new` by any sequence of `generate_to` / `generate_amount` calls,
`is_prime n` returns `true` if and only if `n` is a prime number; in
particular 0 and 1 report not-prime, and the answer is independent of prior
growth. -/
theorem claim_C1 (s : Primes) (hs : Reachable s) (n : Nat) :
    s.is_prime n = true ↔ Nat.Prime n :=
  is_prime_correct s hs.inv n

theorem claim_C1_witness :
    Primes.new.is_prime 101 = true ∧ Primes.new.is_prime 1 = false :=
  ⟨(claim_C1 Primes.new Reachable.new 101).mpr (by norm_num),
   Bool.eq_false_iff.2 fun h => Nat.not_prime_one ((claim_C1 Primes.new Reachable.new 1).mp h)⟩

/-- C2: consistency invariant — on every reachable state, for every index
`i` below the sieve length, the sieve entry at `i` is `false` (prime) exactly
when `i` appears in the primes list. -/
theorem claim_C2 (s : Primes) (hs : Reachable s) (i : Nat) (hi : i < s.sieve.length) :
    s.sieve.getD i true = false ↔ i ∈ s.primes := by
  obtain ⟨_, _, hsieve, hmem, _⟩ := hs.inv
  rw [hsieve i hi, hmem i]
  exact ⟨fun h => ⟨h, hi⟩, fun h => h.1⟩

theorem claim_C2_witness :
    Primes.new.sieve.getD 2 true = false ∧ 2 ∈ Primes.new.primes :=
  ⟨(claim_C2 Primes.new Reachable.new 2 (by decide)).mpr (by decide), by decide⟩

/-- C3: the two code paths of `is_prime` agree — on every reachable state,
`is_prime n` answered by direct sieve lookup after `generate_to n` equals
`is_prime n` answered on the ungrown engine (trial division / wheel). -/
theorem claim_C3 (s : Primes) (hs : Reachable s) (n : Nat) :
    (s.generate_to n).is_prime n = s.is_prime n := by
  have h1 := is_prime_correct _ (Reachable.generate_to s n hs).inv n
  have h2 := is_prime_correct s hs.inv n
  by_cases hp : Nat.Prime n
  · rw [h1.2 hp, h2.2 hp]
  · have b1 : (s.generate_to n).is_prime n = false :=
      Bool.eq_false_iff.2 fun h => hp (h1.1 h)
    have b2 : s.is_prime n = false := Bool.eq_false_iff.2 fun h => hp (h2.1 h)
    rw [b1, b2]

theorem claim_C3_witness :
    (Primes.new.generate_to 101).is_prime 101 = Primes.new.is_prime 101 :=
  claim_C3 Primes.new Reachable.new 101

/-- C4 counterexample: the claim "after ExtendTo(n) the sieve length is the
smallest power of two exceeding n" fails on reachable states whose sieve
already covers `n`: after `generate_to 4` the length is 8; a further
`generate_to 2` keeps length 8, although `2^2 = 4` is a power of two
exceeding 2. -/
theorem claim_C4_counterexample :
    Reachable (Primes.new.generate_to 4) ∧
    (2 : Nat) < 2 ^ 2 ∧
    ¬ ((Primes.new.generate_to 4).generate_to 2).sieve.length ≤ 2 ^ 2 :=
  ⟨Reachable.generate_to Primes.new 4 Reachable.new, by decide, by decide⟩

/-- C4 (amended): on every reachable state, after `generate_to n` the sieve
length exceeds `n` and is a power of two; and when the call actually grows
the sieve (previous length ≤ n), the new length is the smallest power of two
exceeding `n`. -/
theorem claim_C4_amended (s : Primes) (hs : Reachable s) (n : Nat) :
    n < (s.generate_to n).sieve.length ∧
    (∃ k, (s.generate_to n).sieve.length = 2 ^ k) ∧
    (s.sieve.length ≤ n →
      ∀ m, n < 2 ^ m → (s.generate_to n).sieve.length ≤ 2 ^ m) := by
  obtain ⟨_, hpow, _, _, _⟩ := (Reachable.generate_to s n hs).inv
  refine ⟨generate_to_length_gt s n, hpow, ?_⟩
  intro hle m hm
  rw [generate_to_length, if_neg (by omega)]
  exact nextPowerOfTwo_min (n + 1) m (by omega)

theorem claim_C4_witness :
    4 < (Primes.new.generate_to 4).sieve.length ∧
    (Primes.new.generate_to 4).sieve.length ≤ 2 ^ 3 :=
  ⟨(claim_C4_amended Primes.new Reachable.new 4).1,
   (claim_C4_amended Primes.new Reachable.new 4).2.2 (by decide) 3 (by decide)⟩

/-- C5 counterexample: the square comparisons of `is_prime` are not free of
overflow for every `n` representable in the sieve's index type. On a 16-bit
`usize` (`n < 2^16`), `is_prime` on the fresh engine at `n = 65521` (a prime)
runs its wheel up to candidate 257 and computes `257 * 257 = 66049`, which
exceeds `2^16 - 1` and would wrap in 16-bit arithmetic; the code has no
guard. -/
theorem claim_C5_counterexample :
    (65521 : Nat) < 2 ^ 16 ∧
    66049 ∈ isPrimeSquares Primes.new 65521 ∧
    ¬ (66049 : Nat) < 2 ^ 16 :=
  ⟨by decide, by decide, by decide⟩

/-- C5 (amended): on every reachable state, every square computed by
`is_prime n` (both `prime * prime` in the trial loop and
`(candidate) * (candidate)` in the wheel) is at most `4n + 72`; hence the
arithmetic is exact whenever `4n + 72` fits in the index type, but the
implementation has no guard for larger `n`. -/
theorem claim_C5_amended (s : Primes) (hs : Reachable s) (n : Nat) :
    ∀ sq ∈ isPrimeSquares s n, sq ≤ 4 * n + 72 :=
  isPrimeSquares_bound s hs.inv n

theorem claim_C5_witness :
    121 ∈ isPrimeSquares Primes.new 101 ∧ (121 : Nat) ≤ 4 * 101 + 72 :=
  ⟨by decide, claim_C5_amended Primes.new Reachable.new 101 121 (by decide)⟩

/-- C6: on every reachable state and for every `amount` (including 0),
`generate_amount amount` leaves at least `amount + 1` primes in the list. -/
theorem claim_C6 (s : Primes) (hs : Reachable s) (amount : Nat) :
    amount + 1 ≤ (s.generate_amount amount).primes.length :=
  generate_amount_count s amount hs.inv

theorem claim_C6_witness :
    0 + 1 ≤ (Primes.new.generate_amount 0).primes.length ∧
    5 + 1 ≤ (Primes.new.generate_amount 5).primes.length :=
  ⟨claim_C6 Primes.new Reachable.new 0, claim_C6 Primes.new Reachable.new 5⟩

/-- C7: termination — the doubling loop of `generate_amount` finishes within
`amount + 1` iterations from every reachable state (extra fuel never changes
the result), and the 6k±1 wheel loop of `is_prime` finishes within `n + 2`
iterations for every `n` (extra fuel never changes the result). -/
theorem claim_C7 :
    (∀ (s : Primes) (amount fuel : Nat), Reachable s → amount + 1 ≤ fuel →
      generateAmountAux fuel s amount = s.generate_amount amount) ∧
    (∀ (n start fuel : Nat), n + 2 ≤ fuel →
      wheelAux n fuel start = wheelAux n (n + 2) start) := by
  constructor
  · intro s amount fuel hs hfuel
    exact generateAmountAux_stable fuel (amount + 1) s amount hs.inv (by omega) (by omega)
  · intro n start fuel hf
    exact wheelAux_stable n fuel (n + 2) start (by omega) (by omega)

theorem claim_C7_witness :
    generateAmountAux 9 Primes.new 5 = Primes.new.generate_amount 5 ∧
    wheelAux 101 200 6 = wheelAux 101 103 6 :=
  ⟨claim_C7.1 Primes.new 5 9 Reachable.new (by decide),
   claim_C7.2 101 6 200 (by decide)⟩

/-- C8: both iterators never produce "no element"; the `k`-th `next` call
(cursor `k`, counting from 1) calls `generate_amount k` and returns the entry
at position `k - 1` of the primes list (which exists on reachable states);
and the first 10 primes enumerated from a fresh engine are
`[2, 3, 5, 7, 11, 13, 17, 19, 23, 29]`, by both iterators. -/
theorem claim_C8 :
    (∀ it : IntoIter, (IntoIter.next it).1.isSome = true) ∧
    (∀ it : Iter, (Iter.next it).1.isSome = true) ∧
    (∀ (s : Primes) (k : Nat),
      IntoIter.next ⟨s, k⟩ =
        (some ((s.generate_amount (k + 1)).primes.getD k 0),
         ⟨s.generate_amount (k + 1), k + 1⟩)) ∧
    (∀ (s : Primes) (k : Nat), Reachable s →
      k < (s.generate_amount (k + 1)).primes.length) ∧
    takeIntoIter 10 ⟨Primes.new, 0⟩ = [2, 3, 5, 7, 11, 13, 17, 19, 23, 29] ∧
    takeIter 10 ⟨Primes.new, 0⟩ = [2, 3, 5, 7, 11, 13, 17, 19, 23, 29] := by
  refine ⟨fun it => rfl, fun it => rfl, fun s k => rfl, ?_, by decide, by decide⟩
  intro s k hs
  have := generate_amount_count s (k + 1) hs.inv
  omega

theorem claim_C8_witness :
    0 < (Primes.new.generate_amount 1).primes.length :=
  claim_C8.2.2.2.1 Primes.new 0 Reachable.new

/-- C9: monotonic growth — on every reachable state, both growth operations
leave the previous primes list as a prefix of the new one, never shrink the
sieve, and keep the primes list strictly increasing. -/
theorem claim_C9 (s : Primes) (hs : Reachable s) (n k : Nat) :
    (s.primes <+: (s.generate_to n).primes ∧
     s.sieve.length ≤ (s.generate_to n).sieve.length ∧
     List.Pairwise (· < ·) (s.generate_to n).primes) ∧
    (s.primes <+: (s.generate_amount k).primes ∧
     s.sieve.length ≤ (s.generate_amount k).sieve.length ∧
     List.Pairwise (· < ·) (s.generate_amount k).primes) := by
  refine ⟨⟨generate_to_primes_extend s n, generate_to_length_le s n, ?_⟩,
          ⟨generateAmountAux_primes_extend _ s k, generateAmountAux_sieve_le _ s k, ?_⟩⟩
  · exact ((Reachable.generate_to s n hs).inv).2.2.2.2
  · exact ((Reachable.generate_amount s k hs).inv).2.2.2.2

theorem claim_C9_witness :
    Primes.new.primes <+: (Primes.new.generate_to 10).primes :=
  ((claim_C9 Primes.new Reachable.new 10 0).1).1

/-- C10: frame property — on every reachable state, `generate_to` never
modifies an existing sieve entry: all entries below the old length are
unchanged. -/
theorem claim_C10 (s : Primes) (hs : Reachable s) (n j : Nat) (hj : j < s.sieve.length) :
    (s.generate_to n).sieve.getD j true = s.sieve.getD j true := by
  obtain ⟨hlen4, _, hsieve, _, _⟩ := hs.inv
  obtain ⟨hlen4b, _, hsieveb, _, _⟩ := (Reachable.generate_to s n hs).inv
  have hjb : j < (s.generate_to n).sieve.length := by
    have := generate_to_length_le s n
    omega
  have h1 := hsieve j hj
  have h2 := hsieveb j hjb
  by_cases hp : Nat.Prime j
  · rw [h1.2 hp, h2.2 hp]
  · have b1 : s.sieve.getD j true = true := by
      cases hb : s.sieve.getD j true
      · exact absurd (h1.1 hb) hp
      · rfl
    have b2 : (s.generate_to n).sieve.getD j true = true := by
      cases hb : (s.generate_to n).sieve.getD j true
      · exact absurd (h2.1 hb) hp
      · rfl
    rw [b1, b2]

theorem claim_C10_witness :
    (Primes.new.generate_to 10).sieve.getD 2 true = Primes.new.sieve.getD 2 true :=
  claim_C10 Primes.new Reachable.new 10 2 (by decide)

section SanityChecks

example : Primes.new.sieve = [true, true, false, false] := by decide

example : (Primes.new.generate_to 4).sieve.length = 8 := by decide

example : (Primes.new.generate_to 10).primes = [2, 3, 5, 7, 11, 13] := by decide

example : (Primes.new.generate_to 10).sieve =
    [true, true, false, false, true, false, true, false, true, true,
     true, false, true, false, true, true] := by decide

example : ((Primes.new.generate_to 10).generate_to 20).primes =
    [2, 3, 5, 7, 11, 13, 17, 19, 23, 29, 31] := by decide

example : Primes.new.is_prime 0 = false := by decide
example : Primes.new.is_prime 1 = false := by decide
example : Primes.new.is_prime 2 = true := by decide
example : Primes.new.is_prime 3 = true := by decide
example : Primes.new.is_prime 4 = false := by decide
example : Primes.new.is_prime 5 = true := by decide
example : Primes.new.is_prime 100 = false := by decide
example : Primes.new.is_prime 101 = true := by decide
example : (Primes.new.generate_to 101).is_prime 100 = false := by decide
example : (Primes.new.generate_to 101).is_prime 101 = true := by decide

example : takeIntoIter 10 ⟨Primes.new, 0⟩ = [2, 3, 5, 7, 11, 13, 17, 19, 23, 29] := by decide

end SanityChecks
